import Mathlib

/-!
# Model of `table_map_db` (`src/lib.rs`)

A shallow embedding of the EAV staging store and its pivot/export pipeline.

* `item_data` rows are `ItemRow` (surrogate `id`, unique `item_val`);
  `data_columns` rows are `AttrRow` (`key`, `value`, `item_id`).
* The store `TableMapDb` keeps both tables as lists in insertion (rowid)
  order, the autoincrement counter `next_id` (SQLite starts at 1), and the
  current-entity cursor `current_id`.
* SQL queries without an `ORDER BY` are modelled as returning rows in rowid
  (insertion) order, which is what SQLite's scan of a rowid table produces;
  `order by item_id` is modelled as a stable sort by `item_id`
  (`List.insertionSort`), equal keys staying in scan order.
-/

structure ItemRow where
  id : Int
  item_val : String
  deriving DecidableEq, Repr

structure AttrRow where
  key : String
  value : String
  item_id : Int
  deriving DecidableEq, Repr

structure TableMapDb where
  item_data : List ItemRow
  data_columns : List AttrRow
  next_id : Int
  current_id : Option Int
  deriving DecidableEq, Repr

/-- `TableMapDb::new`: fresh file, fresh empty tables, no current entity.
SQLite's autoincrement hands out ids starting at 1. -/
def TableMapDb.new : TableMapDb :=
  { item_data := [], data_columns := [], next_id := 1, current_id := none }

/-- `TableMapDb::item_ids`: `select id from item_data` with no `ORDER BY`;
the scan returns rows in rowid (= id, = insertion) order. -/
def TableMapDb.item_ids (db : TableMapDb) : List Int :=
  db.item_data.map (·.id)

/-- `TableMapDb::next_row`: try `insert into item_data (item_val) values(?1)`.
The insert fails exactly when the unique constraint on `item_val` is violated,
i.e. the value is already present; in that case the fallback
`select id from item_data where item_val = ?1` necessarily succeeds, so the
error branch of the Rust code is unreachable here (its effect on the cursor is
captured separately by `next_row_cursor`). On a fresh insert the cursor gets
`last_insert_rowid`. -/
def TableMapDb.next_row (db : TableMapDb) (d : String) :
    TableMapDb × Except String Unit :=
  match db.item_data.find? (fun r => r.item_val == d) with
  | some r => ({ db with current_id := some r.id }, Except.ok ())
  | none =>
      ({ db with
          item_data := db.item_data ++ [{ id := db.next_id, item_val := d }],
          next_id := db.next_id + 1,
          current_id := some db.next_id }, Except.ok ())

/-- The effect of `TableMapDb::next_row` on `current_id`, with the outcomes of
the two SQLite calls (the insert and the fallback lookup) as parameters,
mirroring the control flow of the Rust function: a failed insert followed by a
successful lookup sets the cursor to the found id; a failed lookup returns the
error before any assignment to `current_id`; a successful insert sets the
cursor to the fresh rowid. -/
def next_row_cursor (insertRes : Except Unit Int) (lookupRes : Except String Int)
    (current_id : Option Int) : Option Int × Except String Unit :=
  match insertRes with
  | Except.error _ =>
      match lookupRes with
      | Except.ok v => (some v, Except.ok ())
      | Except.error e => (current_id, Except.error e)
  | Except.ok rowid => (some rowid, Except.ok ())

/-- `TableMapDb::insert`: refuse with "No item is set" when the cursor is
unset, otherwise append one `data_columns` row tied to the cursor entity. -/
def TableMapDb.insert (db : TableMapDb) (column val : String) :
    TableMapDb × Except String Unit :=
  match db.current_id with
  | none => (db, Except.error "No item is set")
  | some cid =>
      ({ db with data_columns :=
          db.data_columns ++ [{ key := column, value := val, item_id := cid }] },
        Except.ok ())

/-- `TableMapDb::insert_batched`: the cursor check happens before the insert
statement is prepared or executed; then each pair of the ordered map is
appended (per-pair failures are only logged in the Rust code and cannot occur
in this model). -/
def TableMapDb.insert_batched (db : TableMapDb) (index_map : List (String × String)) :
    TableMapDb × Except String Unit :=
  match db.current_id with
  | none => (db, Except.error "No Item is set")
  | some cid =>
      ({ db with data_columns :=
          db.data_columns ++
            index_map.map (fun p => { key := p.1, value := p.2, item_id := cid }) },
        Except.ok ())

/-- First-occurrence deduplication with an accumulator of already-seen
elements; `distinctAux seen l` keeps the elements of `l` not in `seen`, first
occurrence only, in scan order. -/
def distinctAux [BEq α] (seen : List α) : List α → List α
  | [] => []
  | x :: xs =>
      if seen.contains x then distinctAux seen xs
      else x :: distinctAux (x :: seen) xs

/-- `select distinct key from data_columns` (no `ORDER BY`): SQLite scans the
table and skips rows whose key was already emitted, so the result is the keys
in first-occurrence scan order. -/
def distinctInOrder [BEq α] (l : List α) : List α :=
  distinctAux [] l

/-- `TableMapDb::get_distinct_keys`: the distinct stored keys are filtered to
drop those already in `priority_cols`, and the survivors are appended after
`priority_cols` (which itself is not deduplicated). -/
def TableMapDb.get_distinct_keys (db : TableMapDb) (priority_cols : List String) :
    List String :=
  let x := (distinctInOrder (db.data_columns.map (·.key))).filter
    (fun k => !(priority_cols.contains k))
  priority_cols ++ x

/-- Lookup in an `IndexMap<String, String>` modelled as an association list in
insertion order (`IndexMap::get`). -/
def imFind (im : List (String × String)) (k : String) : Option String :=
  (im.find? (fun p => p.1 == k)).map (·.2)

/-- `IndexMap::insert`: if the key is present the value is replaced in place
(the entry keeps its position), otherwise the pair is appended. -/
def indexInsert (im : List (String × String)) (k v : String) :
    List (String × String) :=
  match im with
  | [] => [(k, v)]
  | p :: rest => if p.1 == k then (k, v) :: rest else p :: indexInsert rest k v

/-- One step of the grouping loop in `read_db_chunked`:
`im_dd.entry(item_id).and_modify(insert key val).or_insert_with(singleton)`.
The outer map is an `IndexMap<i64, IndexMap<String, String>>`, again an
insertion-ordered association list. -/
def im_dd_step (m : List (Int × List (String × String))) (r : AttrRow) :
    List (Int × List (String × String)) :=
  if (m.find? (fun p => p.1 == r.item_id)).isSome then
    m.map (fun p => if p.1 == r.item_id then (p.1, indexInsert p.2 r.key r.value) else p)
  else
    m ++ [(r.item_id, [(r.key, r.value)])]

/-- The grouping loop of `read_db_chunked`: scan the fetched rows in order and
build the per-entity key→value mappings. -/
def build_im_dd (rows : List AttrRow) : List (Int × List (String × String)) :=
  rows.foldl im_dd_step []

/-- The projection of `read_db_chunked`: one wide row per entity mapping,
looking up each column and substituting `""` (`unwrap_or_default`) when the
entity has no value for it. -/
def project_row (columns : List String) (im : List (String × String)) :
    List String :=
  columns.map (fun k => (imFind im k).getD "")

/-- `select item_id, key, value from data_columns where item_id in(...) order
by item_id`: the rows whose `item_id` is in the chunk, stably sorted by
`item_id` (SQLite leaves equal keys in scan order). -/
def fetch_rows (dcs : List AttrRow) (ids : List Int) : List AttrRow :=
  (dcs.filter (fun r => ids.contains r.item_id)).insertionSort
    (fun a b => a.item_id ≤ b.item_id)

/-- `read_db_chunked`: `connOk` is the outcome of opening the dedicated
read-only connection; on failure the worker logs and returns the empty batch.
Otherwise it fetches the chunk's attribute rows, groups them per entity and
projects the wide rows. -/
def read_db_chunked (connOk : Bool) (dcs : List AttrRow) (columns : List String)
    (ids : List Int) : List (List String) :=
  if connOk then
    (build_im_dd (fetch_rows dcs ids)).map (fun e => project_row columns e.2)
  else []

/-- Fuel-driven core of `chunksList`; the fuel is an upper bound on the list
length, consumed one unit per emitted chunk, which makes the recursion
structural. -/
def chunksGo (n : Nat) : Nat → List α → List (List α)
  | 0, _ => []
  | _, [] => []
  | fuel + 1, x :: xs => (x :: xs.take (n - 1)) :: chunksGo n fuel (xs.drop (n - 1))

/-- `slice::chunks(n)` as used on `all_ids`: contiguous chunks of length `n`,
the last one holding the remainder. Rust panics when `n = 0`; the model is
only meaningful for `n > 0`. -/
def chunksList (n : Nat) (l : List α) : List (List α) :=
  chunksGo n l.length l

/-- `proc_ids` followed by the drain loop of `dump_csv`/`dump_db`: one worker
per chunk, `connOkAt i` being the outcome of worker `i`'s connection open.
Completion order is runtime-dependent; the model lists the per-chunk batches
in submission order. -/
def proc_ids_batches (connOkAt : Nat → Bool) (dcs : List AttrRow)
    (columns : List String) (chunks : List (List Int)) :
    List (List (List String)) :=
  chunks.enum.map (fun p => read_db_chunked (connOkAt p.1) dcs columns p.2)

/-- Store well-formedness maintained by the operations: entity values are
unique (the SQLite unique constraint), ids are below the autoincrement
counter, and the table holds rows in strictly increasing id order. -/
def Wf (db : TableMapDb) : Prop :=
  (db.item_data.map (·.item_val)).Nodup ∧
  (∀ r ∈ db.item_data, r.id < db.next_id) ∧
  db.item_data.Pairwise (fun a b => a.id < b.id)

instance (db : TableMapDb) : Decidable (Wf db) := by
  unfold Wf; infer_instance

/-- Observation function on the grouped map of `read_db_chunked`: the value
the pivot's per-entity mapping assigns to key `k` for entity `id`. -/
def pivotLookup (m : List (Int × List (String × String))) (id : Int)
    (k : String) : Option String :=
  (m.find? (fun p => p.1 == id)).bind (fun e => imFind e.2 k)

/-- A store reached by the producer operations: two entities, `"apple"` with a
`color` attribute and `"pear"` with `color` and `shape` attributes. -/
def exampleDb : TableMapDb :=
  (((((TableMapDb.new.next_row "apple").1.insert "color" "red").1.next_row
      "pear").1.insert "color" "green").1.insert "shape" "oval").1

/-- A store reached by two `next_row` calls: entities `"a"` (id 1) and `"b"`
(id 2). -/
def twoRowDb : TableMapDb :=
  ((TableMapDb.new.next_row "a").1.next_row "b").1

/-- C7: with the cursor unset, `insert` fails with its "no current entity"
error and leaves the store untouched, and `insert_batched` fails the same way
before any insert is prepared or executed. -/
theorem insert_without_cursor_errors (db : TableMapDb) (c v : String)
    (ps : List (String × String)) (h : db.current_id = none) :
    db.insert c v = (db, Except.error "No item is set") ∧
    db.insert_batched ps = (db, Except.error "No Item is set") := by
  simp [TableMapDb.insert, TableMapDb.insert_batched, h]

/-- Witness for C7 at the fresh store, whose cursor is unset. -/
theorem insert_without_cursor_errors_witness :
    TableMapDb.new.insert "color" "red" =
      (TableMapDb.new, Except.error "No item is set") ∧
    TableMapDb.new.insert_batched [("color", "red")] =
      (TableMapDb.new, Except.error "No Item is set") :=
  insert_without_cursor_errors TableMapDb.new "color" "red" [("color", "red")] rfl

/-- C10: `insert` and `insert_batched` never change the cursor, whether they
succeed or fail, and when the cursor update of `next_row` ends in an error the
cursor keeps its previous value. -/
theorem cursor_changed_only_by_next_row (db : TableMapDb) (c v : String)
    (ps : List (String × String)) (ir : Except Unit Int)
    (lr : Except String Int) (cur : Option Int) (e : String) :
    ((db.insert c v).1).current_id = db.current_id ∧
    ((db.insert_batched ps).1).current_id = db.current_id ∧
    ((next_row_cursor ir lr cur).2 = Except.error e →
      (next_row_cursor ir lr cur).1 = cur) := by
  refine ⟨?_, ?_, ?_⟩
  · cases h : db.current_id <;> simp [TableMapDb.insert, h]
  · cases h : db.current_id <;> simp [TableMapDb.insert_batched, h]
  · cases ir with
    | ok rowid => simp [next_row_cursor]
    | error u => cases lr with
      | ok w => simp [next_row_cursor]
      | error e2 => simp [next_row_cursor]

/-- Witness for C10: a failed insert on a populated store, and a cursor update
whose lookup fails. -/
theorem cursor_changed_only_by_next_row_witness :
    ((TableMapDb.new.insert "k" "v").1).current_id = TableMapDb.new.current_id ∧
    ((next_row_cursor (Except.error ()) (Except.error "nope") (some 5)).1 =
      some 5) :=
  ⟨(cursor_changed_only_by_next_row TableMapDb.new "k" "v" []
      (Except.error ()) (Except.error "nope") (some 5) "nope").1,
    (cursor_changed_only_by_next_row TableMapDb.new "k" "v" []
      (Except.error ()) (Except.error "nope") (some 5) "nope").2.2 rfl⟩

/-- C9: a worker whose read-only connection fails to open returns the empty
batch instead of an error, and every chunk's batch in the fan-out depends only
on that chunk's own connection outcome, so the other chunks still produce
their full batches. -/
theorem conn_failure_returns_empty (dcs : List AttrRow) (cols : List String)
    (ids : List Int) (connOkAt : Nat → Bool) (chunks : List (List Int))
    (i : Nat) :
    read_db_chunked false dcs cols ids = [] ∧
    (proc_ids_batches connOkAt dcs cols chunks)[i]? =
      (chunks[i]?).map (fun c => read_db_chunked (connOkAt i) dcs cols c) := by
  constructor
  · rfl
  · simp only [proc_ids_batches, List.getElem?_map, List.getElem?_enum]
    cases chunks[i]? <;> rfl

lemma chunksGo_nil (n fuel : Nat) : chunksGo n fuel ([] : List α) = [] := by
  cases fuel <;> rfl

lemma chunksGo_join (n : Nat) :
    ∀ (fuel : Nat) (l : List α), l.length ≤ fuel → (chunksGo n fuel l).flatten = l := by
  intro fuel
  induction fuel with
  | zero =>
      intro l h
      have : l = [] := List.eq_nil_of_length_eq_zero (Nat.le_zero.mp h)
      subst this; rfl
  | succ fuel ih =>
      intro l h
      cases l with
      | nil => rfl
      | cons x xs =>
          have hlen : (xs.drop (n - 1)).length ≤ fuel := by
            simp only [List.length_drop]
            simp only [List.length_cons] at h
            omega
          simp only [chunksGo, List.flatten_cons, ih _ hlen, List.cons_append]
          rw [List.take_append_drop]

lemma chunksGo_length (n : Nat) (hn : 0 < n) :
    ∀ (fuel : Nat) (l : List α), l.length ≤ fuel →
      (chunksGo n fuel l).length = (l.length + n - 1) / n := by
  intro fuel
  induction fuel with
  | zero =>
      intro l h
      have : l = [] := List.eq_nil_of_length_eq_zero (Nat.le_zero.mp h)
      subst this
      simp [chunksGo, Nat.div_eq_of_lt (show n - 1 < n by omega)]
  | succ fuel ih =>
      intro l h
      cases l with
      | nil => simp [chunksGo, Nat.div_eq_of_lt (show n - 1 < n by omega)]
      | cons x xs =>
          have hlen : (xs.drop (n - 1)).length ≤ fuel := by
            simp only [List.length_drop]
            simp only [List.length_cons] at h
            omega
          have hrw : xs.length + 1 + n - 1 = xs.length + n := by omega
          simp only [chunksGo, List.length_cons, ih _ hlen, List.length_drop, hrw]
          rw [Nat.add_div_right _ hn]
          rcases le_or_lt n xs.length with hc | hc
          · have : xs.length - (n - 1) + n - 1 = xs.length := by omega
            rw [this]
          · have h0 : xs.length - (n - 1) = 0 := by omega
            rw [h0, Nat.zero_add, Nat.div_eq_of_lt (show n - 1 < n by omega),
              Nat.div_eq_of_lt hc]

lemma chunksGo_ne_nil (n fuel : Nat) (l : List α) (h : l.length ≤ fuel)
    (hl : l ≠ []) : chunksGo n fuel l ≠ [] := by
  cases fuel with
  | zero =>
      exact absurd (List.eq_nil_of_length_eq_zero (Nat.le_zero.mp h)) hl
  | succ fuel =>
      cases l with
      | nil => exact absurd rfl hl
      | cons x xs => simp [chunksGo]

lemma chunksGo_mem_length (n : Nat) (hn : 0 < n) :
    ∀ (fuel : Nat) (l : List α), l.length ≤ fuel →
      ∀ c ∈ chunksGo n fuel l, 0 < c.length ∧ c.length ≤ n := by
  intro fuel
  induction fuel with
  | zero => intro l _ c hc; simp [chunksGo] at hc
  | succ fuel ih =>
      intro l h c hc
      cases l with
      | nil => simp [chunksGo] at hc
      | cons x xs =>
          have hlen : (xs.drop (n - 1)).length ≤ fuel := by
            simp only [List.length_drop]
            simp only [List.length_cons] at h
            omega
          simp only [chunksGo, List.mem_cons] at hc
          rcases hc with rfl | hc
          · constructor
            · simp
            · simp only [List.length_cons, List.length_take]
              omega
          · exact ih _ hlen c hc

lemma chunksGo_dropLast_length (n : Nat) (hn : 0 < n) :
    ∀ (fuel : Nat) (l : List α), l.length ≤ fuel →
      ∀ c ∈ (chunksGo n fuel l).dropLast, c.length = n := by
  intro fuel
  induction fuel with
  | zero => intro l _ c hc; simp [chunksGo] at hc
  | succ fuel ih =>
      intro l h c hc
      cases l with
      | nil => simp [chunksGo] at hc
      | cons x xs =>
          have hlen : (xs.drop (n - 1)).length ≤ fuel := by
            simp only [List.length_drop]
            simp only [List.length_cons] at h
            omega
          simp only [chunksGo] at hc
          by_cases hr : xs.drop (n - 1) = []
          · rw [hr, chunksGo_nil] at hc
            simp at hc
          · rw [List.dropLast_cons_of_ne_nil (chunksGo_ne_nil n fuel _ hlen hr),
              List.mem_cons] at hc
            rcases hc with rfl | hc
            · have hxs : n - 1 ≤ xs.length := by
                by_contra hcon
                exact hr (List.drop_eq_nil_of_le (by omega))
              simp only [List.length_cons, List.length_take]
              omega
            · exact ih _ hlen c hc

/-- C6: for a positive chunk size, `slice::chunks` produces
`ceil(len / chunkSize)` chunks, every chunk except possibly the last has
length exactly `chunkSize`, every chunk is nonempty and no longer than
`chunkSize`, and the concatenation of the chunks is the input list itself, so
no id is lost or duplicated. -/
theorem chunksList_partition (n : Nat) (l : List Int) (hn : 0 < n) :
    (chunksList n l).length = (l.length + n - 1) / n ∧
    (∀ c ∈ (chunksList n l).dropLast, c.length = n) ∧
    (∀ c ∈ chunksList n l, 0 < c.length ∧ c.length ≤ n) ∧
    (chunksList n l).flatten = l :=
  ⟨chunksGo_length n hn l.length l (Nat.le_refl _),
    chunksGo_dropLast_length n hn l.length l (Nat.le_refl _),
    chunksGo_mem_length n hn l.length l (Nat.le_refl _),
    chunksGo_join n l.length l (Nat.le_refl _)⟩

/-- Witness for C6 on `[1..10]` with chunk size 3, including the concrete
partition `[[1,2,3],[4,5,6],[7,8,9],[10]]` the claim names. -/
theorem chunksList_partition_witness :
    0 < 3 ∧
    ((chunksList 3 ([1, 2, 3, 4, 5, 6, 7, 8, 9, 10] : List Int)).length =
        (([1, 2, 3, 4, 5, 6, 7, 8, 9, 10] : List Int).length + 3 - 1) / 3 ∧
      (∀ c ∈ (chunksList 3 ([1, 2, 3, 4, 5, 6, 7, 8, 9, 10] : List Int)).dropLast,
        c.length = 3) ∧
      (∀ c ∈ chunksList 3 ([1, 2, 3, 4, 5, 6, 7, 8, 9, 10] : List Int),
        0 < c.length ∧ c.length ≤ 3) ∧
      (chunksList 3 ([1, 2, 3, 4, 5, 6, 7, 8, 9, 10] : List Int)).flatten =
        [1, 2, 3, 4, 5, 6, 7, 8, 9, 10]) ∧
    chunksList 3 ([1, 2, 3, 4, 5, 6, 7, 8, 9, 10] : List Int) =
      [[1, 2, 3], [4, 5, 6], [7, 8, 9], [10]] :=
  ⟨by decide,
    chunksList_partition 3 [1, 2, 3, 4, 5, 6, 7, 8, 9, 10] (by decide),
    by decide⟩

lemma distinctAux_cons_mem [BEq α] [LawfulBEq α] (seen : List α) (x : α)
    (xs : List α) (h : x ∈ seen) :
    distinctAux seen (x :: xs) = distinctAux seen xs := by
  simp [distinctAux, List.contains, h]

lemma distinctAux_cons_not_mem [BEq α] [LawfulBEq α] (seen : List α) (x : α)
    (xs : List α) (h : x ∉ seen) :
    distinctAux seen (x :: xs) = x :: distinctAux (x :: seen) xs := by
  simp [distinctAux, List.contains, h]

lemma mem_distinctAux [BEq α] [LawfulBEq α] (l : List α) :
    ∀ (seen : List α) (a : α), a ∈ distinctAux seen l ↔ a ∈ l ∧ a ∉ seen := by
  induction l with
  | nil => intro seen a; simp [distinctAux]
  | cons x xs ih =>
      intro seen a
      by_cases hx : x ∈ seen
      · rw [distinctAux_cons_mem seen x xs hx, ih seen a]
        simp only [List.mem_cons]
        by_cases hax : a = x
        · subst hax; simp [hx]
        · simp [hax]
      · rw [distinctAux_cons_not_mem seen x xs hx]
        simp only [List.mem_cons, ih (x :: seen) a]
        by_cases hax : a = x
        · subst hax; simp [hx]
        · simp [hax]

lemma nodup_distinctAux [BEq α] [LawfulBEq α] (l : List α) :
    ∀ seen : List α, (distinctAux seen l).Nodup := by
  induction l with
  | nil => intro seen; simp [distinctAux]
  | cons x xs ih =>
      intro seen
      by_cases hx : x ∈ seen
      · rw [distinctAux_cons_mem seen x xs hx]
        exact ih seen
      · rw [distinctAux_cons_not_mem seen x xs hx]
        refine List.nodup_cons.mpr ⟨fun hmem => ?_, ih (x :: seen)⟩
        exact ((mem_distinctAux xs (x :: seen) x).mp hmem).2
          (List.mem_cons_self x seen)

lemma mem_distinctInOrder [BEq α] [LawfulBEq α] (l : List α) (a : α) :
    a ∈ distinctInOrder l ↔ a ∈ l := by
  simp [distinctInOrder, mem_distinctAux]

lemma nodup_distinctInOrder [BEq α] [LawfulBEq α] (l : List α) :
    (distinctInOrder l).Nodup :=
  nodup_distinctAux l []

/-- C2 (amended): when the priority list itself has no duplicates,
`get_distinct_keys` returns the priority list unchanged as a prefix, followed
by every stored attribute key not already in it, with no key repeated; the
code does not deduplicate the priority list itself. -/
theorem get_distinct_keys_spec (db : TableMapDb) (p : List String)
    (hp : p.Nodup) :
    (db.get_distinct_keys p).Nodup ∧
    (∀ k, k ∈ db.get_distinct_keys p ↔
      k ∈ p ∨ k ∈ db.data_columns.map (·.key)) ∧
    (db.get_distinct_keys p).take p.length = p := by
  refine ⟨?_, ?_, ?_⟩
  · refine List.Nodup.append hp ((nodup_distinctInOrder _).filter _) ?_
    intro k hk hmem
    have h2 := List.of_mem_filter hmem
    have h3 : k ∉ p := by simpa [List.contains] using h2
    exact h3 hk
  · intro k
    simp only [TableMapDb.get_distinct_keys, List.mem_append, List.mem_filter,
      mem_distinctInOrder, List.contains, List.elem_eq_mem,
      Bool.not_eq_eq_eq_not, Bool.not_true, decide_eq_false_iff_not]
    tauto
  · simp [TableMapDb.get_distinct_keys]

/-- Witness for C2 (amended) on a store whose attribute keys are `color` and
`shape`, with priority `["shape"]`: the result is exactly `["shape","color"]`.
-/
theorem get_distinct_keys_spec_witness :
    (["shape"] : List String).Nodup ∧
    ((exampleDb.get_distinct_keys ["shape"]).Nodup ∧
      (∀ k, k ∈ exampleDb.get_distinct_keys ["shape"] ↔
        k ∈ ["shape"] ∨ k ∈ exampleDb.data_columns.map (·.key)) ∧
      (exampleDb.get_distinct_keys ["shape"]).take
        (["shape"] : List String).length = ["shape"]) ∧
    exampleDb.get_distinct_keys ["shape"] = ["shape", "color"] :=
  ⟨by decide, get_distinct_keys_spec exampleDb ["shape"] (by decide), by decide⟩

/-- C2 counterexample: `get_distinct_keys` does not deduplicate the priority
list, so with priority `["shape","shape"]` the key `"shape"` appears twice in
the result, refuting "each key appearing exactly once" for arbitrary priority
lists. -/
theorem get_distinct_keys_dup_priority :
    TableMapDb.new.get_distinct_keys ["shape", "shape"] = ["shape", "shape"] ∧
    ¬ (TableMapDb.new.get_distinct_keys ["shape", "shape"]).Nodup := by
  constructor
  · rfl
  · decide

/-- C5 (amended): for a well-formed store, `item_ids` lists every entity id
exactly once, in ascending-id (creation) order — the scan has no `ORDER BY`
and returns rowid order, not the descending order the claim states. -/
theorem item_ids_ascending (db : TableMapDb) (hw : Wf db) :
    db.item_ids.Pairwise (· < ·) ∧
    (∀ i, i ∈ db.item_ids ↔ ∃ r ∈ db.item_data, r.id = i) ∧
    db.item_ids.Nodup := by
  have hpw : db.item_ids.Pairwise (· < ·) := by
    rw [TableMapDb.item_ids, List.pairwise_map]
    exact hw.2.2
  refine ⟨hpw, ?_, hpw.imp (fun h => ne_of_lt h)⟩
  intro i
  simp [TableMapDb.item_ids, List.mem_map]

/-- Witness for C5 (amended) on the two-entity store. -/
theorem item_ids_ascending_witness :
    Wf twoRowDb ∧
    (twoRowDb.item_ids.Pairwise (· < ·) ∧
      (∀ i, i ∈ twoRowDb.item_ids ↔ ∃ r ∈ twoRowDb.item_data, r.id = i) ∧
      twoRowDb.item_ids.Nodup) :=
  ⟨by decide, item_ids_ascending twoRowDb (by decide)⟩

/-- C5 counterexample: after creating entities `"a"` (id 1) and `"b"` (id 2),
`item_ids` returns `[1, 2]`, which is not in descending-id (reverse creation)
order. -/
theorem item_ids_not_descending :
    twoRowDb.item_ids = [1, 2] ∧
    ¬ twoRowDb.item_ids.Pairwise (· > ·) := by
  constructor
  · rfl
  · decide

lemma filter_val_length_one (v : String) :
    ∀ l : List ItemRow, (l.map (·.item_val)).Nodup →
      ∀ r ∈ l, r.item_val = v →
        (l.filter (fun s => s.item_val == v)).length = 1 := by
  intro l
  induction l with
  | nil => intro _ r hr; exact absurd hr (List.not_mem_nil r)
  | cons a tl ih =>
      intro hnd r hr hrv
      rw [List.map_cons, List.nodup_cons] at hnd
      rcases List.mem_cons.mp hr with rfl | hrtl
      · rw [List.filter_cons_of_pos (by simp [hrv])]
        have hempty : tl.filter (fun s => s.item_val == v) = [] := by
          rw [List.filter_eq_nil_iff]
          intro x hx hxv
          rw [beq_iff_eq] at hxv
          exact hnd.1 (List.mem_map.mpr ⟨x, hx, by rw [hxv, hrv]⟩)
        rw [hempty]
        rfl
      · have hav : ¬(a.item_val = v) := by
          intro hav
          exact hnd.1 (List.mem_map.mpr ⟨r, hrtl, by rw [hrv, hav]⟩)
        rw [List.filter_cons_of_neg (by simp [hav])]
        exact ih hnd.2 r hrtl hrv

/-- C3: `next_row` is idempotent: calling it twice with the same value
succeeds both times, leaves exactly one entity row with that value, resolves
both calls to the same entity id, sets the cursor to that id on each call,
and the second call does not change the entity table. -/
theorem next_row_idempotent (db : TableMapDb) (v : String) (hw : Wf db) :
    (db.next_row v).2 = Except.ok () ∧
    ((db.next_row v).1.next_row v).2 = Except.ok () ∧
    (∃ i, (db.next_row v).1.current_id = some i ∧
      ((db.next_row v).1.next_row v).1.current_id = some i) ∧
    (((db.next_row v).1.next_row v).1.item_data.filter
      (fun r => r.item_val == v)).length = 1 ∧
    ((db.next_row v).1.next_row v).1.item_data = (db.next_row v).1.item_data := by
  rcases hF : db.item_data.find? (fun r => r.item_val == v) with _ | r
  · have hnone : ∀ x ∈ db.item_data, ¬(x.item_val == v) = true :=
      List.find?_eq_none.mp hF
    have hfind2 : (db.item_data ++
        [{ id := db.next_id, item_val := v : ItemRow }]).find?
          (fun r => r.item_val == v) =
        some { id := db.next_id, item_val := v } := by
      rw [List.find?_append, hF, Option.none_or]
      exact List.find?_cons_of_pos _ (by simp)
    refine ⟨?_, ?_, ⟨db.next_id, ?_, ?_⟩, ?_, ?_⟩
    · simp [TableMapDb.next_row, hF]
    · simp [TableMapDb.next_row, hF, hfind2]
    · simp [TableMapDb.next_row, hF]
    · simp [TableMapDb.next_row, hF, hfind2]
    · simp only [TableMapDb.next_row, hF, hfind2]
      rw [List.filter_append, List.filter_eq_nil_iff.mpr hnone,
        List.filter_cons_of_pos (by simp)]
      rfl
    · simp [TableMapDb.next_row, hF, hfind2]
  · have hrv : r.item_val = v := by
      have h1 := List.find?_some hF
      simpa using h1
    have hrmem : r ∈ db.item_data := List.mem_of_find?_eq_some hF
    refine ⟨?_, ?_, ⟨r.id, ?_, ?_⟩, ?_, ?_⟩
    · simp [TableMapDb.next_row, hF]
    · simp [TableMapDb.next_row, hF]
    · simp [TableMapDb.next_row, hF]
    · simp [TableMapDb.next_row, hF]
    · simp only [TableMapDb.next_row, hF]
      exact filter_val_length_one v db.item_data hw.1 r hrmem hrv
    · simp [TableMapDb.next_row, hF]

/-- Witness for C3 on the fresh (well-formed) store with value `"x"`. -/
theorem next_row_idempotent_witness :
    Wf TableMapDb.new ∧
    ((TableMapDb.new.next_row "x").2 = Except.ok () ∧
      ((TableMapDb.new.next_row "x").1.next_row "x").2 = Except.ok () ∧
      (∃ i, (TableMapDb.new.next_row "x").1.current_id = some i ∧
        ((TableMapDb.new.next_row "x").1.next_row "x").1.current_id = some i) ∧
      (((TableMapDb.new.next_row "x").1.next_row "x").1.item_data.filter
        (fun r => r.item_val == "x")).length = 1 ∧
      ((TableMapDb.new.next_row "x").1.next_row "x").1.item_data =
        (TableMapDb.new.next_row "x").1.item_data) :=
  ⟨by decide, next_row_idempotent TableMapDb.new "x" (by decide)⟩

/-- C1: every wide row the pivot worker emits has exactly as many fields as
the column list, and field `i` is the value the entity's key→value mapping
assigns to column `i`, with `""` substituted when the mapping has no value for
that column (the field is never omitted). -/
theorem read_db_chunked_row_shape (connOk : Bool) (dcs : List AttrRow)
    (cols : List String) (ids : List Int) (row : List String)
    (hrow : row ∈ read_db_chunked connOk dcs cols ids) :
    row.length = cols.length ∧
    ∃ e ∈ build_im_dd (fetch_rows dcs ids),
      ∀ i : Nat, row[i]? = (cols[i]?).map (fun k => (imFind e.2 k).getD "") := by
  cases connOk with
  | false => simp [read_db_chunked] at hrow
  | true =>
      simp only [read_db_chunked, if_true] at hrow
      obtain ⟨e, he, rfl⟩ := List.mem_map.mp hrow
      refine ⟨by simp [project_row], e, he, fun i => ?_⟩
      simp [project_row, List.getElem?_map]

/-- Witness for C1: the single row emitted for a one-attribute entity against
columns `["color","shape"]` is `["red",""]`. -/
theorem read_db_chunked_row_shape_witness :
    (["red", ""] ∈
      read_db_chunked true [⟨"color", "red", 1⟩] ["color", "shape"] [1]) ∧
    ((["red", ""] : List String).length =
        (["color", "shape"] : List String).length ∧
      ∃ e ∈ build_im_dd (fetch_rows [⟨"color", "red", 1⟩] [1]),
        ∀ i : Nat, (["red", ""] : List String)[i]? =
          ((["color", "shape"] : List String)[i]?).map
            (fun k => (imFind e.2 k).getD "")) :=
  ⟨by decide,
    read_db_chunked_row_shape true [⟨"color", "red", 1⟩] ["color", "shape"]
      [1] ["red", ""] (by decide)⟩


lemma imFind_indexInsert (im : List (String × String)) (k v k' : String) :
    imFind (indexInsert im k v) k' =
      if k' = k then some v else imFind im k' := by
  induction im with
  | nil =>
      by_cases h : k' = k
      · subst h; simp [indexInsert, imFind]
      · have h2 : ¬(k = k') := fun hh => h hh.symm
        simp [indexInsert, imFind, h, h2]
  | cons p rest ih =>
      by_cases hp : p.1 = k
      · rw [show indexInsert (p :: rest) k v = (k, v) :: rest from by
          simp [indexInsert, hp]]
        by_cases h : k' = k
        · subst h; simp [imFind]
        · have h2 : ¬(k = k') := fun hh => h hh.symm
          have hp2 : ¬(p.1 = k') := by rw [hp]; exact h2
          simp [imFind, h, h2, hp2]
      · rw [show indexInsert (p :: rest) k v = p :: indexInsert rest k v from by
          simp [indexInsert, hp]]
        by_cases hpk : p.1 = k'
        · have h : ¬(k' = k) := fun hh => hp (by rw [hpk, hh])
          simp [imFind, hpk, h]
        · simp only [imFind] at ih ⊢
          simp [hpk, ih]

lemma pivotLookup_im_dd_step (m : List (Int × List (String × String)))
    (r : AttrRow) (id : Int) (k : String) :
    pivotLookup (im_dd_step m r) id k =
      if r.item_id = id ∧ r.key = k then some r.value
      else pivotLookup m id k := by
  by_cases hs : (m.find? (fun p => p.1 == r.item_id)).isSome
  · rw [show im_dd_step m r = m.map (fun p =>
        if p.1 == r.item_id then (p.1, indexInsert p.2 r.key r.value) else p)
        from by simp [im_dd_step, hs]]
    have hfst : (fun (p : Int × List (String × String)) => p.1 == id) ∘
        (fun p => if p.1 == r.item_id then
          (p.1, indexInsert p.2 r.key r.value) else p) =
        (fun p => p.1 == id) := by
      funext p
      by_cases h : p.1 = r.item_id <;> simp [h]
    rw [pivotLookup, List.find?_map, hfst]
    rcases hF : m.find? (fun p => p.1 == id) with _ | e
    · have hid : ¬(r.item_id = id) := by
        intro hid
        rw [hid, hF] at hs
        simp at hs
      simp [pivotLookup, hF, hid]
    · have he : e.1 = id := by
        have h1 := List.find?_some hF
        simpa using h1
      by_cases hid : r.item_id = id
      · have heq : (e.1 == r.item_id) = true := by simp [he, hid]
        simp only [Option.map_some', Option.some_bind, heq, if_true,
          imFind_indexInsert, pivotLookup, hF]
        by_cases hk : r.key = k
        · simp [hid, hk]
        · have hk2 : ¬(k = r.key) := fun hh => hk hh.symm
          simp [hid, hk, hk2]
      · have heq : ¬(e.1 = r.item_id) := by
          rw [he]; exact fun hh => hid hh.symm
        simp [heq, pivotLookup, hF, hid]
  · rw [show im_dd_step m r = m ++ [(r.item_id, [(r.key, r.value)])] from by
      simp [im_dd_step, hs]]
    rcases hF : m.find? (fun p => p.1 == id) with _ | e
    · by_cases hid : r.item_id = id
      · subst hid
        by_cases hk : r.key = k
        · simp [pivotLookup, List.find?_append, hF, imFind, hk]
        · have hk2 : ¬(k = r.key) := fun hh => hk hh.symm
          simp [pivotLookup, List.find?_append, hF, imFind, hk, hk2]
      · simp [pivotLookup, List.find?_append, hF, hid]
    · have hid : ¬(r.item_id = id) := by
        intro hh
        rw [hh, hF] at hs
        simp at hs
      simp [pivotLookup, List.find?_append, hF, hid]
lemma pivotLookup_foldl (id : Int) (k : String) :
    ∀ (rows : List AttrRow) (m : List (Int × List (String × String))),
      pivotLookup (rows.foldl im_dd_step m) id k =
        ((rows.reverse.find? (fun r => r.item_id == id && r.key == k)).map
          (·.value)).or (pivotLookup m id k) := by
  intro rows
  induction rows with
  | nil => intro m; simp
  | cons r rest ih =>
      intro m
      rw [List.foldl_cons, ih (im_dd_step m r), pivotLookup_im_dd_step,
        List.reverse_cons, List.find?_append]
      rcases hrest : rest.reverse.find?
          (fun r => r.item_id == id && r.key == k) with _ | v
      · rw [hrest]
        simp only [Option.map_none', Option.none_or]
        by_cases hc : r.item_id = id ∧ r.key = k
        · simp [hc, hc.1, hc.2, Option.or]
        · rcases not_and_or.mp hc with hc1 | hc1 <;> simp [hc, hc1]
      · rw [hrest]
        simp [Option.or]

/-- C4: the per-entity mapping built by the pivot worker's grouping loop
assigns to each (entity, key) pair the value of the latest matching row in
scan (fetch) order — last write wins — and concretely, an entity given
`(color,"red")` and then `(color,"blue")` pivots to `color = "blue"`. -/
theorem build_im_dd_last_write_wins (rows : List AttrRow) (id : Int)
    (k : String) :
    pivotLookup (build_im_dd rows) id k =
      (rows.reverse.find? (fun r => r.item_id == id && r.key == k)).map
        (·.value) ∧
    read_db_chunked true [⟨"color", "red", 1⟩, ⟨"color", "blue", 1⟩]
      ["color"] [1] = [["blue"]] := by
  constructor
  · rw [build_im_dd, pivotLookup_foldl]
    simp [pivotLookup, Option.or_none]
  · decide

lemma distinctAux_congr [BEq α] [LawfulBEq α] (l : List α) :
    ∀ s t : List α, (∀ a, a ∈ s ↔ a ∈ t) →
      distinctAux s l = distinctAux t l := by
  induction l with
  | nil => intro s t _; rfl
  | cons x xs ih =>
      intro s t h
      by_cases hx : x ∈ s
      · rw [distinctAux_cons_mem _ _ _ hx,
          distinctAux_cons_mem _ _ _ ((h x).mp hx), ih s t h]
      · have hx2 : x ∉ t := fun ht => hx ((h x).mpr ht)
        rw [distinctAux_cons_not_mem _ _ _ hx,
          distinctAux_cons_not_mem _ _ _ hx2]
        exact congrArg (x :: ·)
          (ih (x :: s) (x :: t) (fun a => by simp [List.mem_cons, h a]))

lemma build_im_dd_keys (rows : List AttrRow) :
    ∀ m, ((rows.foldl im_dd_step m).map (·.1)) =
      m.map (·.1) ++ distinctAux (m.map (·.1)) (rows.map (·.item_id)) := by
  induction rows with
  | nil => intro m; simp [distinctAux]
  | cons r rest ih =>
      intro m
      rw [List.foldl_cons, ih (im_dd_step m r), List.map_cons]
      by_cases hs : (m.find? (fun p => p.1 == r.item_id)).isSome
      · have hmem : r.item_id ∈ m.map (·.1) := by
          rw [List.find?_isSome] at hs
          obtain ⟨p, hp, hpred⟩ := hs
          have hp1 : p.1 = r.item_id := by simpa using hpred
          exact hp1 ▸ List.mem_map_of_mem _ hp
        have hkeys : (im_dd_step m r).map (·.1) = m.map (·.1) := by
          rw [show im_dd_step m r = m.map (fun p =>
              if p.1 == r.item_id then
                (p.1, indexInsert p.2 r.key r.value) else p)
            from by simp [im_dd_step, hs]]
          rw [List.map_map]
          apply List.map_congr_left
          intro p _
          by_cases h : p.1 = r.item_id <;> simp [h]
        rw [hkeys, distinctAux_cons_mem _ _ _ hmem]
      · have hmem : r.item_id ∉ m.map (·.1) := by
          intro hmem
          apply hs
          rw [List.find?_isSome]
          obtain ⟨p, hp, he⟩ := List.mem_map.mp hmem
          exact ⟨p, hp, by simp [he]⟩
        have hkeys : (im_dd_step m r).map (·.1) =
            m.map (·.1) ++ [r.item_id] := by
          rw [show im_dd_step m r = m ++ [(r.item_id, [(r.key, r.value)])]
            from by simp [im_dd_step, hs]]
          simp
        rw [hkeys, distinctAux_cons_not_mem _ _ _ hmem, List.append_assoc,
          List.singleton_append]
        refine congrArg (m.map (·.1) ++ ·) (congrArg (r.item_id :: ·) ?_)
        exact distinctAux_congr _ _ _
          (fun a => by simp [List.mem_append, List.mem_cons, or_comm])

/-- C8: the batch a worker returns has exactly one wide row per entity id of
the chunk that has at least one attribute row, in first-appearance order of
the entity ids while scanning the chunk's fetched rows: the grouped entities
are the fetched item ids deduplicated in first-occurrence order, without
repetition, an id is grouped exactly when it lies in the chunk and owns an
attribute row, and the returned batch is the projection of the grouped
entities in that order. -/
theorem read_db_chunked_batch_entities (dcs : List AttrRow)
    (cols : List String) (ids : List Int) :
    ((build_im_dd (fetch_rows dcs ids)).map (·.1)) =
      distinctInOrder ((fetch_rows dcs ids).map (·.item_id)) ∧
    ((build_im_dd (fetch_rows dcs ids)).map (·.1)).Nodup ∧
    (∀ i : Int, i ∈ (build_im_dd (fetch_rows dcs ids)).map (·.1) ↔
      (i ∈ ids ∧ ∃ r ∈ dcs, r.item_id = i)) ∧
    read_db_chunked true dcs cols ids =
      (build_im_dd (fetch_rows dcs ids)).map (fun e => project_row cols e.2) := by
  have h1 : ((build_im_dd (fetch_rows dcs ids)).map (·.1)) =
      distinctInOrder ((fetch_rows dcs ids).map (·.item_id)) := by
    rw [build_im_dd, build_im_dd_keys]
    simp [distinctInOrder]
  refine ⟨h1, ?_, ?_, rfl⟩
  · rw [h1]
    exact nodup_distinctInOrder _
  · intro i
    rw [h1, mem_distinctInOrder]
    simp only [List.mem_map, fetch_rows]
    constructor
    · rintro ⟨r, hr, rfl⟩
      have hr2 : r ∈ dcs.filter (fun r => ids.contains r.item_id) :=
        (List.perm_insertionSort _ _).mem_iff.mp hr
      have hr3 := List.mem_filter.mp hr2
      refine ⟨by simpa [List.contains] using hr3.2, r, hr3.1, rfl⟩
    · rintro ⟨hin, r, hr, rfl⟩
      refine ⟨r, ?_, rfl⟩
      apply (List.perm_insertionSort _ _).mem_iff.mpr
      exact List.mem_filter.mpr ⟨hr, by simp [List.contains, hin]⟩
